import Mathlib

/-!
Shallow embedding of the bit-interleaving and integer-logarithm subsystems of the
`bitmanip` C++ library, together with proofs about the embedded algorithms.

Machine integers are modelled as `Nat` with explicit reductions `% 2^w` exactly at
the points where the C++ code relies on fixed-width wrap-around; all definitions
mirror the corresponding `constexpr` (compile-time) code paths, which are the
portable algorithms (the hardware PDEP/PEXT/CLZ fast paths are dispatched away
from under `isConstantEvaluated` and are out of scope here, as in the spec).
-/

namespace Bitmanip

/-! ## Trait layer and small helpers (`bit.hpp`, `intdiv.hpp`, `bitcount.hpp`) -/

/-- `divCeil` from `intdiv.hpp` for unsigned operands: rounds the quotient towards
positive infinity (`cx / cy + (cx % cy != 0 && quotientPositive)`). -/
def divCeil (x y : Nat) : Nat :=
  x / y + (if x % y ≠ 0 then 1 else 0)

/-- `makeMask` from `bit.hpp` at width `w`: `(Uint{1} << length) - Uint{1}`. -/
def makeMask (w length : Nat) : Nat :=
  ((1 <<< length) % 2 ^ w - 1) % 2 ^ w

/-- `log2bits_v` from `bit.hpp`: log2 of the bit width of a type. The source encodes
the table `"0112222333333334"[sizeof - 1] + 3 - '0'`; for the four instantiated
widths 8/16/32/64 this yields 3/4/5/6 respectively, which is what we embed. -/
def log2bits_v (w : Nat) : Nat :=
  if w = 8 then 3 else if w = 16 then 4 else if w = 32 then 5 else 6

/-- Loop body of `popCount_naive` from `bitcount.hpp`
(`for (; input != 0; input >>= 1) result += input & 1;`), with an explicit fuel
argument so that the recursion is structural. -/
def popCount_naiveGo : Nat → Nat → Nat
  | 0, _ => 0
  | fuel + 1, input => if input = 0 then 0 else (input &&& 1) + popCount_naiveGo fuel (input >>> 1)

/-- `popCount_naive` from `bitcount.hpp`. A fuel of 64 iterations is exact for all
64-bit inputs (the widest instantiated type), since the loop halves its argument
each round. -/
def popCount_naive (input : Nat) : Nat :=
  popCount_naiveGo 64 input

/-! ## Base-2 logarithms (`intlog.hpp`) -/

/-- Loop of `ceilPow2m1_shift` from `intlog.hpp`: `v |= v >> (1 << i)` for
`i = 0 .. iterations-1` with `iterations = log2bits_v<Uint>`. -/
def ceilPow2m1_shift (w v : Nat) : Nat :=
  (List.range (log2bits_v w)).foldl (fun v i => v ||| (v >>> (1 <<< i))) v

/-- Loop of `log2floor_fast` from `intlog.hpp`, counting the loop variable down:
fuel `i+1` corresponds to the C++ iteration with loop counter `i+1` (which uses
`compBits = 1 << i`). -/
def log2floor_fastGo : Nat → Nat → Nat → Nat
  | 0, _, result => result
  | i + 1, v, result =>
    let shift := if 2 ^ (2 ^ i) ≤ v then 2 ^ i else 0
    log2floor_fastGo i (v >>> shift) (result ||| shift)

/-- `log2floor_fast` from `intlog.hpp`: binary search over bit-position ranges,
`log2bits_v<Uint>` rounds of compare-shift-or. -/
def log2floor_fast (w v : Nat) : Nat :=
  log2floor_fastGo (log2bits_v w) v 0

/-- `detail::MultiplyDeBruijnBitPosition` from `intlog.hpp`. -/
def MultiplyDeBruijnBitPosition : List Nat :=
  [0, 9, 1, 10, 13, 21, 2, 29, 11, 14, 16,
   18, 22, 25, 3, 30, 8, 12, 20, 28, 15, 17,
   24, 7, 19, 27, 23, 6, 26, 5, 4, 31]

/-- `log2floor_debruijn` from `intlog.hpp` (32-bit only): round up to all-ones below
the highest bit (`ceilPow2m1`, whose constant-evaluation path is
`ceilPow2m1_shift`), multiply by the De Bruijn constant in `uint32` arithmetic,
shift right by 27 and look the result up in the 32-entry table. -/
def log2floor_debruijn (v : Nat) : Nat :=
  let v := v % 2 ^ 32
  let v := ceilPow2m1_shift 32 v
  let v := (v * 0x07C4ACDD) % 2 ^ 32
  let v := v >>> 27
  MultiplyDeBruijnBitPosition.getD v 0

/-- `log2floor` from `intlog.hpp`, constant-evaluation path: the De Bruijn variant
for `uint32_t` and `log2floor_fast` for every other width. -/
def log2floor (w v : Nat) : Nat :=
  if w = 32 then log2floor_debruijn v else log2floor_fast w v

/-- `isPow2or0` from `intlog.hpp` at width `w`: `(val & (val - 1)) == 0`, where
`val - 1` wraps modulo `2^w` (so `0 - 1` is the all-ones pattern). -/
def isPow2or0 (w val : Nat) : Bool :=
  val &&& ((val + (2 ^ w - 1)) % 2 ^ w) = 0

/-- `isPow2` from `intlog.hpp`: `val != 0 && isPow2or0(val)`. For `val ≠ 0` the
decrement cannot wrap, so plain `Nat` subtraction is faithful. -/
def isPow2 (val : Nat) : Bool :=
  val ≠ 0 && (val &&& (val - 1) = 0)

/-- `log2ceil` from `intlog.hpp`: `log2floor(val) + not isPow2or0(val)`. -/
def log2ceil (w val : Nat) : Nat :=
  log2floor w val + (if isPow2or0 w val then 0 else 1)

/-! ## Arbitrary-base logarithms (`intlog.hpp`) -/

/-- Loop body of `detail::logFloor_naive` from `intlog.hpp`
(`while (val /= base) ++result;`), with an explicit fuel argument so that the
recursion is structural. -/
def logFloor_naiveGo (base : Nat) : Nat → Nat → Nat
  | 0, _ => 0
  | fuel + 1, val => if val / base = 0 then 0 else logFloor_naiveGo base fuel (val / base) + 1

/-- `detail::logFloor_naive` from `intlog.hpp`: repeated division. The C++ loop
terminates only for `base ≥ 2` (a precondition of every call site); a fuel of 64
iterations is exact for every 64-bit input with such a base. -/
def logFloor_naive (val base : Nat) : Nat :=
  logFloor_naiveGo base 64 val

/-- `maxExp<BASE, Uint>` from `intlog.hpp`: `logFloor_naive(~Uint{0}, BASE)`. -/
def maxExp (base w : Nat) : Nat :=
  logFloor_naive (2 ^ w - 1) base

/-- `detail::makeGuessTable<Uint, BASE>` from `intlog.hpp`: entry `i` for `i` below
the bit width is `logFloor_naive(Uint{1} << i, BASE)`. -/
def makeGuessTable (w base : Nat) : List Nat :=
  (List.range w).map (fun i => logFloor_naive (2 ^ i) base)

/-- `detail::unsafeMulQ32o32Q64` from `intlog.hpp`: `q32o32 * q64 >> 32` in
`uint64` arithmetic. -/
def mulQ32o32Q64 (q32o32 q64 : Nat) : Nat :=
  ((q32o32 * q64) % 2 ^ 64) >>> 32

/-- `detail::unsafeMulQ16o16Q32` from `intlog.hpp`: `q16o16 * q32 >> 16` in
`uint32` arithmetic. -/
def mulQ16o16Q32 (q16o16 q32 : Nat) : Nat :=
  ((q16o16 * q32) % 2 ^ 32) >>> 16

/-- `detail::cmpU64` from `intlog.hpp`: `(b < a) - (a < b)`. -/
def cmpU64 (a b : Nat) : Int :=
  (if b < a then (1 : Int) else 0) - (if a < b then (1 : Int) else 0)

/-- Loop of `detail::compareApproximationToGuessTable` from `intlog.hpp`, scanning
positions `b, b+1, ...` and returning the first nonzero comparison between the
approximated and the tabulated logarithm. The fuel is the number of remaining
positions. -/
def compareApproxGo (approxFactor : Nat) (table : List Nat) : Nat → Nat → Int
  | _, 0 => 0
  | b, n + 1 =>
    let c := cmpU64 (mulQ32o32Q64 approxFactor b) (table.getD b 0)
    if c ≠ 0 then c else compareApproxGo approxFactor table (b + 1) n

/-- `detail::compareApproximationToGuessTable` from `intlog.hpp`. -/
def compareApproximationToGuessTable (approxFactor : Nat) (table : List Nat) : Int :=
  compareApproxGo approxFactor table 0 table.length

/-- `detail::NO_APPROXIMATION` from `intlog.hpp`: `~uint64_t{0}`. -/
def NO_APPROXIMATION : Nat := 2 ^ 64 - 1

/-- Loop of `detail::approximateGuessTable` from `intlog.hpp`: greedy bit-by-bit
refinement over candidate bits `b = 32, 31, ..., 0` (fuel `b+1` handles bit `b`). -/
def approximateGuessTableGo (table : List Nat) : Nat → Nat → Nat
  | 0, _ => NO_APPROXIMATION
  | b + 1, result =>
    let guessedResult := result ||| (1 <<< b)
    let cmp := compareApproximationToGuessTable guessedResult table
    if cmp = 0 then guessedResult
    else if cmp = -1 then approximateGuessTableGo table b guessedResult
    else approximateGuessTableGo table b result

/-- `detail::approximateGuessTable` from `intlog.hpp`. -/
def approximateGuessTable (table : List Nat) : Nat :=
  approximateGuessTableGo table 33 0

/-- `detail::LogFloorGuesser<Uint, BASE>::operator()` from `intlog.hpp`: look up or
approximate `guessTable[log2]`; the result type is `uint8_t`, hence the final
reduction modulo `2^8`. -/
def guesser (w base log2 : Nat) : Nat :=
  let table := makeGuessTable w base
  let approx := approximateGuessTable table
  (if approx = NO_APPROXIMATION then table.getD (log2 % 2 ^ 8) 0
   else if approx &&& makeMask 64 16 = 0 then mulQ16o16Q32 (approx >>> 16) (log2 % 2 ^ 8)
   else mulQ32o32Q64 approx (log2 % 2 ^ 8)) % 2 ^ 8

/-- `detail::LogFloorGuesser<Uint, BASE>::maxGuess` from `intlog.hpp`:
`guessTable.back()`. -/
def maxGuess (w base : Nat) : Nat :=
  (makeGuessTable w base).getD (w - 1) 0

/-- `detail::nextLargerUint_impl` from `bit.hpp`, as the bit width of the resulting
type. The source tests `bits_v<Int> >= 8` first and `uint_least16_t` is 16 bits
wide on the modelled platform, so every instantiated width (8/16/32/64, all of
which satisfy `bits >= 8`) selects a 16-bit table type. -/
def nextLargerUintBits (w : Nat) : Nat :=
  if 8 ≤ w then 16 else if 16 ≤ w then 32 else if 32 ≤ w then 64 else 64

/-- `detail::makePowerTable<Uint, BASE, TableUint>` from `intlog.hpp`: a table of
`maxExp + 2` powers of the base; the running power is accumulated in `uintmax_t`
(64 bits, wrapping) and then cast to the table type of width `tw`. -/
def makePowerTable (w base tw : Nat) : List Nat :=
  (List.range (maxExp base w + 2)).map (fun i => (base ^ i % 2 ^ 64) % 2 ^ tw)

/-- `logFloor<BASE, Uint>` from `intlog.hpp`, constant-evaluation path, at width
`w`. For a power-of-two base it reduces to a quotient of binary logarithms (the
base, a `size_t`, uses the 64-bit instantiation); otherwise it corrects the
guesser's estimate with a single comparison against the power table, choosing
between table-compare and division-compare exactly as the source's
`if constexpr` condition `sizeof(Uint) < sizeof(table_value_type) ||
guesser.maxGuess() + 2 < powers.size()` does. -/
def logFloor (base w val : Nat) : Nat :=
  if isPow2 base then
    log2floor w val / log2floor 64 base
  else
    let tw := nextLargerUintBits w
    let powers := makePowerTable w base tw
    let guess := guesser w base (log2floor w val)
    if w < tw ∨ maxGuess w base + 2 < powers.length then
      guess + (if powers.getD (guess + 1) 0 ≤ val then 1 else 0)
    else
      guess + (if powers.getD guess 0 ≤ val / base then 1 else 0)

/-- `log10floor` from `intlog.hpp`: forwards to `logFloor<10>`. -/
def log10floor (w val : Nat) : Nat :=
  logFloor 10 w val

/-! ## Bit duplication and zero-interleaving (`bitileave.hpp`) -/

/-- `detail::duplBits_naive` from `bitileave.hpp`: duplicates each input bit
`out_bits_per_in_bits` times into a `uint64` result. The output-bit cursor
`b_out` advances once per inner iteration, i.e. it equals `i * bits + j`. -/
def duplBits_naive (input bits : Nat) : Nat :=
  if bits = 0 then 0
  else
    (List.range (divCeil 64 bits)).foldl
      (fun result i =>
        (List.range bits).foldl
          (fun result j => result ||| ((((input >>> i) &&& 1) <<< (i * bits + j)) % 2 ^ 64))
          result)
      0

/-- `detail::ileaveZeros_naive` from `bitileave.hpp`: places bit `i` of the 32-bit
input at output position `i * (bits + 1)`, for `i` below
`min(32, divCeil(64, bits + 1))`. -/
def ileaveZeros_naive (input bits : Nat) : Nat :=
  let input := input % 2 ^ 32
  (List.range (min 32 (divCeil 64 (bits + 1)))).foldl
    (fun result i => result ||| (((input >>> i) &&& 1) <<< (i * (bits + 1))))
    0

/-- The five-entry `MASKS` array of `detail::ileaveZeros_shift` from
`bitileave.hpp`: duplications of `ileaveZeros_naive(~uint32{0}, BITS)` by factors
1, 2, 4, 8, 16. -/
def ileaveMasks (bits : Nat) : List Nat :=
  [duplBits_naive (ileaveZeros_naive (2 ^ 32 - 1) bits) 1,
   duplBits_naive (ileaveZeros_naive (2 ^ 32 - 1) bits) 2,
   duplBits_naive (ileaveZeros_naive (2 ^ 32 - 1) bits) 4,
   duplBits_naive (ileaveZeros_naive (2 ^ 32 - 1) bits) 8,
   duplBits_naive (ileaveZeros_naive (2 ^ 32 - 1) bits) 16]

/-- `detail::ileaveZeros_shift<BITS>` from `bitileave.hpp`: masked doubling-shift
zero-interleave. The loop runs `i = start, start-1, ..., 0` with
`start = 4 - log2floor(BITS >> 1)` (the argument is `unsigned`, so the 32-bit
`log2floor` instantiation is used); each round computes
`n |= n << (BITS * 2^i); n &= MASKS[i]` in `uint64` arithmetic. `Nat`
subtraction in `start` truncates at zero, which agrees with the C++ `int`
arithmetic for every `BITS < 64` (larger `BITS` make the C++ loop run out of
its array and are precondition violations). -/
def ileaveZeros_shift (bits input : Nat) : Nat :=
  let input := input % 2 ^ 32
  if bits = 0 then input
  else
    let masks := ileaveMasks bits
    let start := 4 - log2floor 32 (bits >>> 1)
    (List.range (start + 1)).reverse.foldl
      (fun n i => (n ||| ((n <<< (bits * (1 <<< i))) % 2 ^ 64)) &&& masks.getD i 0)
      input

/-- `ileaveZeros_const<BITS, SHIFT>` from `bitileave.hpp`, constant-evaluation
path: `ileaveZeros_shift<BITS>(input) << SHIFT` in `uint64` arithmetic. -/
def ileaveZeros_const (bits shift input : Nat) : Nat :=
  (ileaveZeros_shift bits input <<< shift) % 2 ^ 64

/-! ## Bit de-interleaving (`bitileave.hpp`) -/

/-- Loop body of `detail::remIleavedBits_naive` from `bitileave.hpp`: the pair
state is `(result, b_out)`; bit `i` is kept iff `i % (bits + 1) == 0`, in which
case it is appended at output position `b_out`. -/
def remStep (input bits : Nat) (p : Nat × Nat) (i : Nat) : Nat × Nat :=
  if i % (bits + 1) = 0 then (p.1 ||| (((input >>> i) &&& 1) <<< p.2), p.2 + 1) else p

/-- `detail::remIleavedBits_naive` from `bitileave.hpp`: scans all 64 input bits,
keeping every `(bits + 1)`-th one, packed contiguously from bit 0 upwards. -/
def remIleavedBits_naive (input bits : Nat) : Nat :=
  ((List.range 64).foldl (remStep input bits) (0, 0)).1

/-- The six-entry `MASKS` array of `detail::remIleavedBits_shift` from
`bitileave.hpp`: duplication factors 1, 2, 4, 8, 16, 32. -/
def remMasks (bits : Nat) : List Nat :=
  [duplBits_naive (ileaveZeros_naive (2 ^ 32 - 1) bits) 1,
   duplBits_naive (ileaveZeros_naive (2 ^ 32 - 1) bits) 2,
   duplBits_naive (ileaveZeros_naive (2 ^ 32 - 1) bits) 4,
   duplBits_naive (ileaveZeros_naive (2 ^ 32 - 1) bits) 8,
   duplBits_naive (ileaveZeros_naive (2 ^ 32 - 1) bits) 16,
   duplBits_naive (ileaveZeros_naive (2 ^ 32 - 1) bits) 32]

/-- `detail::remIleavedBits_shift<BITS>` from `bitileave.hpp`: mask with
`MASKS[0]`, then `iterations = 5 - log2floor(BITS >> 1)` rounds of
`input |= input >> (2^i * BITS); input &= MASKS[i + 1]`. -/
def remIleavedBits_shift (bits input : Nat) : Nat :=
  let input := input % 2 ^ 64
  if bits = 0 then input
  else
    let masks := remMasks bits
    let iterations := 5 - log2floor 32 (bits >>> 1)
    (List.range iterations).foldl
      (fun n i => (n ||| (n >>> ((1 <<< i) * bits))) &&& masks.getD (i + 1) 0)
      (input &&& masks.getD 0 0)

/-- `remIleavedBits_const<BITS, SHIFT>` from `bitileave.hpp`, constant-evaluation
path: `remIleavedBits_shift<BITS>(input >> SHIFT)`. -/
def remIleavedBits_const (bits shift input : Nat) : Nat :=
  remIleavedBits_shift bits (input >>> shift)

/-! ## Number interleaving (`bitileave.hpp`) -/

/-- The two-argument `ileave` from `bitileave.hpp`
(`detail::ileave_impl`): `ileaveZeros_const<1, 1-I>(args[I])` ORed over both
arguments, so the first argument lands in the higher bit of each 2-bit group. -/
def ileave2 (a0 a1 : Nat) : Nat :=
  ileaveZeros_const 1 1 a0 ||| ileaveZeros_const 1 0 a1

/-- The three-argument `ileave` from `bitileave.hpp`: a Morton code with the first
argument in the highest bit of each 3-bit group. -/
def ileave3 (a0 a1 a2 : Nat) : Nat :=
  ileaveZeros_const 2 2 a0 ||| ileaveZeros_const 2 1 a1 ||| ileaveZeros_const 2 0 a2

/-- The three-output `dileave` from `bitileave.hpp` (`detail::dileave_impl`) with
`uint32_t` outputs: `out[I] = Uint(remIleavedBits_const<2, 2-I>(n))`. -/
def dileave3 (n : Nat) : Nat × Nat × Nat :=
  (remIleavedBits_const 2 2 n % 2 ^ 32,
   remIleavedBits_const 2 1 n % 2 ^ 32,
   remIleavedBits_const 2 0 n % 2 ^ 32)

/-! ## Byte interleaving (`bitileave.hpp`) -/

/-- `ileaveBytes_const<COUNT>` from `bitileave.hpp`: each of the low `count` bytes
is zero-interleaved with `count - 1` bits and shifted into its lane
(`result |= ileaveZeros_const<COUNT-1>(bytes & 0xff) << i; bytes >>= 8`). -/
def ileaveBytes_const (count bytes : Nat) : Nat :=
  let bytes := bytes % 2 ^ 64
  if count = 0 then 0
  else
    (List.range count).foldl
      (fun result i =>
        result ||| ((ileaveZeros_const (count - 1) 0 ((bytes >>> (8 * i)) &&& 0xff) <<< i) % 2 ^ 64))
      0

/-- `detail::ileaveBytes_jmp` from `bitileave.hpp`: a nine-way switch dispatching
to `ileaveBytes_const<0> .. ileaveBytes_const<8>`; `count > 8` is a documented
precondition violation (`BITMANIP_UNREACHABLE`), modelled as 0. -/
def ileaveBytes_jmp (bytes count : Nat) : Nat :=
  if count ≤ 8 then ileaveBytes_const count bytes else 0

/-- `ileaveBytes` from `bitileave.hpp`: forwards to `detail::ileaveBytes_jmp`. -/
def ileaveBytes (bytes count : Nat) : Nat :=
  ileaveBytes_jmp bytes count

/-- `dileaveBytes_const<COUNT>` from `bitileave.hpp`: for `i = COUNT, ..., 1`,
`result <<= 8; result |= remIleavedBits_const<COUNT-1>(ileaved >> (i - 1))`
(the fold below runs over `i - 1 = count-1, ..., 0`). -/
def dileaveBytes_const (count ileaved : Nat) : Nat :=
  if count = 0 then 0
  else
    (List.range count).reverse.foldl
      (fun result i => ((result <<< 8) % 2 ^ 64) ||| remIleavedBits_const (count - 1) 0 (ileaved >>> i))
      0

/-- `detail::dileaveBytes_jmp` from `bitileave.hpp`: the switch analogous to
`ileaveBytes_jmp`. -/
def dileaveBytes_jmp (bytes count : Nat) : Nat :=
  if count ≤ 8 then dileaveBytes_const count bytes else 0

/-- `dileave_bytes` from `bitileave.hpp`: forwards to `detail::dileaveBytes_jmp`. -/
def dileave_bytes (bytes count : Nat) : Nat :=
  dileaveBytes_jmp bytes count

/-! ## Bitwise proof toolbox

The interleaving algorithms are all built from shifts, bitwise AND with constant
masks, and OR-accumulation, so they distribute over `|||`; every value below
`2 ^ N` is the OR of powers of two, so two such functions agreeing on all
`2 ^ j` with `j < N` agree below `2 ^ N`. -/

theorem lor_lor_lor (a b c d : Nat) : (a ||| b) ||| (c ||| d) = (a ||| c) ||| (b ||| d) := by
  ac_rfl

theorem mod_two_pow_lor (a b k : Nat) : (a ||| b) % 2 ^ k = a % 2 ^ k ||| b % 2 ^ k := by
  apply Nat.eq_of_testBit_eq
  intro t
  simp [Nat.testBit_mod_two_pow, Nat.testBit_or, Bool.and_or_distrib_left]

theorem shiftLeft_lor (a b s : Nat) : (a ||| b) <<< s = a <<< s ||| b <<< s := by
  apply Nat.eq_of_testBit_eq
  intro t
  simp [Nat.testBit_shiftLeft, Nat.testBit_or, Bool.and_or_distrib_left]

theorem shiftRight_lor (a b s : Nat) : (a ||| b) >>> s = a >>> s ||| b >>> s := by
  apply Nat.eq_of_testBit_eq
  intro t
  simp [Nat.testBit_shiftRight, Nat.testBit_or]

theorem and_lor (a b m : Nat) : (a ||| b) &&& m = (a &&& m) ||| (b &&& m) := by
  apply Nat.eq_of_testBit_eq
  intro t
  simp [Nat.testBit_and, Nat.testBit_or, Bool.and_or_distrib_right]

/-- A function on `Nat` that maps zero to zero and distributes over bitwise OR. -/
def OrLinear (f : Nat → Nat) : Prop :=
  f 0 = 0 ∧ ∀ a b : Nat, f (a ||| b) = f a ||| f b

/-- Every number below `2 ^ (n + 1)` splits as its low `n` bits ORed with its
(possibly absent) bit `n`. -/
theorem eq_lowbits_lor_highbit {x n : Nat} (h : x < 2 ^ (n + 1)) :
    x = x % 2 ^ n ||| (if x.testBit n then 2 ^ n else 0) := by
  apply Nat.eq_of_testBit_eq
  intro t
  rcases Nat.lt_trichotomy t n with ht | ht | ht
  · have hne : n ≠ t := by omega
    cases hxb : x.testBit n <;>
      simp [Nat.testBit_mod_two_pow, Nat.testBit_or, ht, Nat.testBit_two_pow, hne]
  · subst ht
    cases hxb : x.testBit t <;>
      simp [Nat.testBit_mod_two_pow, Nat.testBit_or, hxb, Nat.testBit_two_pow]
  · have hx : x.testBit t = false := Nat.testBit_lt_two_pow (lt_of_lt_of_le h (Nat.pow_le_pow_right (by omega) ht))
    have hne : n ≠ t := by omega
    cases hxb : x.testBit n <;>
      simp [Nat.testBit_mod_two_pow, Nat.testBit_or, hx, Nat.testBit_two_pow, hne, Nat.not_lt.mpr (Nat.le_of_lt ht)]

/-- Two OR-linear functions that agree on all powers of two below `2 ^ N` agree on
every number below `2 ^ N`. -/
theorem OrLinear.eq_on_lt_two_pow {f g : Nat → Nat} (hf : OrLinear f) (hg : OrLinear g) :
    ∀ N, (∀ j, j < N → f (2 ^ j) = g (2 ^ j)) → ∀ x, x < 2 ^ N → f x = g x := by
  intro N
  induction N with
  | zero =>
    intro _ x hx
    interval_cases x
    rw [hf.1, hg.1]
  | succ n ih =>
    intro hbase x hx
    rw [eq_lowbits_lor_highbit hx, hf.2, hg.2]
    have h1 : f (x % 2 ^ n) = g (x % 2 ^ n) :=
      ih (fun j hj => hbase j (Nat.lt_succ_of_lt hj)) _ (Nat.mod_lt x (Nat.pos_pow_of_pos n (by omega)))
    have h2 : f (if x.testBit n then 2 ^ n else 0) = g (if x.testBit n then 2 ^ n else 0) := by
      cases x.testBit n with
      | true => simpa using hbase n (Nat.lt_succ_self n)
      | false => simpa using hf.1.trans hg.1.symm
    rw [h1, h2]

theorem foldl_step_distrib (step : Nat → Nat → Nat)
    (h : ∀ a b i, step (a ||| b) i = step a i ||| step b i) (l : List Nat) :
    ∀ a b, l.foldl step (a ||| b) = l.foldl step a ||| l.foldl step b := by
  induction l with
  | nil => intro a b; rfl
  | cons i l ihl => intro a b; simp only [List.foldl_cons, h]; exact ihl _ _

theorem foldl_step_zero (step : Nat → Nat → Nat) (h0 : ∀ i, step 0 i = 0) (l : List Nat) :
    l.foldl step 0 = 0 := by
  induction l with
  | nil => rfl
  | cons i l ihl => simp only [List.foldl_cons, h0]; exact ihl

/-- The masked doubling-shift zero-interleave distributes over OR (its loop body is
shift, OR, and AND with a constant mask). -/
theorem ileaveZeros_shift_orLinear (bits : Nat) : OrLinear (fun x => ileaveZeros_shift bits x) := by
  constructor
  · show ileaveZeros_shift bits 0 = 0
    unfold ileaveZeros_shift
    simp only [Nat.zero_mod]
    split
    · rfl
    · exact foldl_step_zero _ (fun i => by simp) _
  · intro a b
    show ileaveZeros_shift bits (a ||| b) = ileaveZeros_shift bits a ||| ileaveZeros_shift bits b
    unfold ileaveZeros_shift
    simp only [mod_two_pow_lor a b 32]
    split
    · rfl
    · exact foldl_step_distrib _
        (fun a b i => by
          simp only [shiftLeft_lor, mod_two_pow_lor, ← and_lor]
          rw [lor_lor_lor])
        _ _ _

theorem foldl_or_terms_distrib (t u : Nat → Nat) (l : List Nat) :
    ∀ a b, l.foldl (fun r i => r ||| (t i ||| u i)) (a ||| b)
      = l.foldl (fun r i => r ||| t i) a ||| l.foldl (fun r i => r ||| u i) b := by
  induction l with
  | nil => intro a b; rfl
  | cons i l ihl =>
    intro a b
    simp only [List.foldl_cons]
    rw [lor_lor_lor]
    exact ihl _ _

/-- A fold that ORs one input-dependent term per iteration is OR-linear in the
input whenever each term is. -/
theorem orLinear_foldl_range (term : Nat → Nat → Nat)
    (hterm : ∀ a b i, term (a ||| b) i = term a i ||| term b i)
    (hzero : ∀ i, term 0 i = 0) (l : List Nat) :
    OrLinear (fun x => l.foldl (fun r i => r ||| term x i) 0) := by
  constructor
  · exact foldl_step_zero _ (fun i => by rw [hzero]; simp) l
  · intro a b
    show l.foldl (fun r i => r ||| term (a ||| b) i) 0 = _
    simp only [hterm]
    have h := foldl_or_terms_distrib (term a) (term b) l 0 0
    simp only [Nat.zero_or] at h
    exact h

/-- The naive zero-interleave distributes over OR (it ORs together one isolated,
shifted bit of the input per iteration). -/
theorem ileaveZeros_naive_orLinear (bits : Nat) : OrLinear (fun x => ileaveZeros_naive x bits) := by
  have base := orLinear_foldl_range (fun x i => ((x >>> i) &&& 1) <<< (i * (bits + 1)))
    (fun a b i => by simp only [shiftRight_lor, and_lor, shiftLeft_lor]) (fun i => by simp)
    (List.range (min 32 (divCeil 64 (bits + 1))))
  constructor
  · show ileaveZeros_naive 0 bits = 0
    unfold ileaveZeros_naive
    simp only [Nat.zero_mod]
    exact base.1
  · intro a b
    show ileaveZeros_naive (a ||| b) bits = ileaveZeros_naive a bits ||| ileaveZeros_naive b bits
    unfold ileaveZeros_naive
    simp only [mod_two_pow_lor a b 32]
    exact base.2 (a % 2 ^ 32) (b % 2 ^ 32)

/-! ## C1: the masked doubling-shift zero-interleave matches the naive one -/

set_option maxRecDepth 100000 in
/-- For every `k` in `[1, 63]`, the two zero-interleave algorithms agree on all
powers of two below `2 ^ 32` (checked by evaluation). -/
theorem ileaveZeros_shift_naive_basis :
    ∀ k, k < 64 → 1 ≤ k → ∀ j, j < 32 → ileaveZeros_shift k (2 ^ j) = ileaveZeros_naive (2 ^ j) k := by
  decide

/-- Claim C1: for every `k` in `[1, 63]` and every 32-bit input, the masked
doubling-shift zero-interleave `ileaveZeros_shift<k>` returns exactly the same
64-bit value as the naive bit-by-bit zero-interleave `ileaveZeros_naive(input, k)`. -/
theorem ileaveZeros_shift_eq_naive (k : Nat) (hk1 : 1 ≤ k) (hk : k ≤ 63) :
    ∀ input, input < 2 ^ 32 → ileaveZeros_shift k input = ileaveZeros_naive input k :=
  OrLinear.eq_on_lt_two_pow (ileaveZeros_shift_orLinear k) (ileaveZeros_naive_orLinear k) 32
    (fun j hj => ileaveZeros_shift_naive_basis k (by omega) hk1 j hj)

/-- Witness for C1 at `k = 5`, `input = 0xDEADBEEF`. -/
theorem ileaveZeros_shift_eq_naive_witness :
    1 ≤ 5 ∧ 5 ≤ 63 ∧ 0xDEADBEEF < 2 ^ 32 ∧
      ileaveZeros_shift 5 0xDEADBEEF = ileaveZeros_naive 0xDEADBEEF 5 :=
  ⟨by decide, by decide, by decide,
    ileaveZeros_shift_eq_naive 5 (by decide) (by decide) 0xDEADBEEF (by decide)⟩

/-! ## C7: the two-argument interleave scenario -/

/-- Counterexample to claim C7 as stated: at the explicit input `(0b1111, 0)` the
two-argument interleave yields `0b10101010` (four spread bits in the high slot of
each 2-bit group), not the claimed 16-bit pattern `0b10101010_10101010`, which
would require the full 8-bit argument `0b1111'1111` of the repository's test. -/
theorem ileave2_scenario_counterexample :
    ileave2 0b1111 0 = 0b10101010 ∧ ileave2 0b1111 0 ≠ 0b1010101010101010 := by
  decide

/-- Claim C7 (amended): the two-argument interleave satisfies the repository's
actual scenario `ileave(0b1111'1111, 0) == 0b10101010_10101010`, the first
argument occupying the higher bit of each 2-bit group (on the 4-bit input
`0b1111` this convention yields `0b10101010`). -/
theorem ileave2_scenario :
    ileave2 0b11111111 0 = 0b1010101010101010 ∧ ileave2 0b1111 0 = 0b10101010 := by
  decide

/-! ## More OR-linearity: the remaining interleave algorithms -/

theorem OrLinear.comp {f g : Nat → Nat} (hf : OrLinear f) (hg : OrLinear g) :
    OrLinear (fun x => f (g x)) :=
  ⟨by simp only [hg.1, hf.1], fun a b => by simp only [hg.2, hf.2]⟩

theorem OrLinear.id : OrLinear (fun x : Nat => x) :=
  ⟨rfl, fun _ _ => rfl⟩

theorem OrLinear.const_zero : OrLinear (fun _ : Nat => 0) :=
  ⟨rfl, fun _ _ => by simp⟩

/-- `ileaveZeros_const` (shift then reduce modulo `2 ^ 64`) is OR-linear. -/
theorem ileaveZeros_const_orLinear (bits shift : Nat) :
    OrLinear (fun x => ileaveZeros_const bits shift x) := by
  have h := ileaveZeros_shift_orLinear bits
  constructor
  · show (ileaveZeros_shift bits 0 <<< shift) % 2 ^ 64 = 0
    rw [show ileaveZeros_shift bits 0 = 0 from h.1]
    simp
  · intro a b
    show (ileaveZeros_shift bits (a ||| b) <<< shift) % 2 ^ 64 = _
    rw [show ileaveZeros_shift bits (a ||| b)
          = ileaveZeros_shift bits a ||| ileaveZeros_shift bits b from h.2 a b,
        shiftLeft_lor, mod_two_pow_lor]
    rfl

theorem ileaveZeros_const_lor (bits shift a b : Nat) :
    ileaveZeros_const bits shift (a ||| b)
      = ileaveZeros_const bits shift a ||| ileaveZeros_const bits shift b :=
  (ileaveZeros_const_orLinear bits shift).2 a b

theorem ileaveZeros_const_zero (bits shift : Nat) : ileaveZeros_const bits shift 0 = 0 :=
  (ileaveZeros_const_orLinear bits shift).1

/-- The masked doubling-shift de-interleave is OR-linear. -/
theorem remIleavedBits_shift_orLinear (bits : Nat) :
    OrLinear (fun x => remIleavedBits_shift bits x) := by
  constructor
  · show remIleavedBits_shift bits 0 = 0
    unfold remIleavedBits_shift
    simp only [Nat.zero_mod]
    split
    · rfl
    · rw [Nat.zero_and]
      exact foldl_step_zero _ (fun i => by simp) _
  · intro a b
    show remIleavedBits_shift bits (a ||| b) = _
    unfold remIleavedBits_shift
    simp only [mod_two_pow_lor a b 64]
    split
    · rfl
    · rw [and_lor]
      exact foldl_step_distrib _
        (fun a b i => by
          simp only [shiftRight_lor, ← and_lor]
          rw [lor_lor_lor])
        _ _ _

theorem remIleavedBits_const_orLinear (bits shift : Nat) :
    OrLinear (fun x => remIleavedBits_const bits shift x) := by
  have h := remIleavedBits_shift_orLinear bits
  constructor
  · show remIleavedBits_shift bits (0 >>> shift) = 0
    rw [Nat.zero_shiftRight]
    exact h.1
  · intro a b
    show remIleavedBits_shift bits ((a ||| b) >>> shift) = _
    rw [shiftRight_lor]
    exact h.2 _ _

theorem remIleavedBits_const_lor (bits shift a b : Nat) :
    remIleavedBits_const bits shift (a ||| b)
      = remIleavedBits_const bits shift a ||| remIleavedBits_const bits shift b :=
  (remIleavedBits_const_orLinear bits shift).2 a b

theorem remIleavedBits_const_zero (bits shift : Nat) : remIleavedBits_const bits shift 0 = 0 :=
  (remIleavedBits_const_orLinear bits shift).1

/-- The byte interleave is OR-linear in its payload. -/
theorem ileaveBytes_const_orLinear (count : Nat) :
    OrLinear (fun bytes => ileaveBytes_const count bytes) := by
  cases count with
  | zero => exact ⟨rfl, fun a b => by simp [ileaveBytes_const]⟩
  | succ c =>
    have base := orLinear_foldl_range
      (fun x i => (ileaveZeros_const (c + 1 - 1) 0 ((x >>> (8 * i)) &&& 0xff) <<< i) % 2 ^ 64)
      (fun a b i => by
        simp only [shiftRight_lor, and_lor, ileaveZeros_const_lor, shiftLeft_lor, mod_two_pow_lor])
      (fun i => by simp [ileaveZeros_const_zero])
      (List.range (c + 1))
    constructor
    · show ileaveBytes_const (c + 1) 0 = 0
      unfold ileaveBytes_const
      simpa using base.1
    · intro a b
      show ileaveBytes_const (c + 1) (a ||| b) = _
      unfold ileaveBytes_const
      simp only [Nat.succ_ne_zero, if_false, mod_two_pow_lor a b 64]
      exact base.2 (a % 2 ^ 64) (b % 2 ^ 64)

theorem foldl_shift8_or_terms_distrib (t u : Nat → Nat) (l : List Nat) :
    ∀ a b, l.foldl (fun r i => ((r <<< 8) % 2 ^ 64) ||| (t i ||| u i)) (a ||| b)
      = l.foldl (fun r i => ((r <<< 8) % 2 ^ 64) ||| t i) a
        ||| l.foldl (fun r i => ((r <<< 8) % 2 ^ 64) ||| u i) b := by
  induction l with
  | nil => intro a b; rfl
  | cons i l ihl =>
    intro a b
    simp only [List.foldl_cons]
    rw [shiftLeft_lor, mod_two_pow_lor, lor_lor_lor]
    exact ihl _ _

/-- A fold of the `result <<= 8; result |= term` shape is OR-linear in the input
whenever each term is. -/
theorem orLinear_foldl_dileave (term : Nat → Nat → Nat)
    (hterm : ∀ a b i, term (a ||| b) i = term a i ||| term b i)
    (hzero : ∀ i, term 0 i = 0) (l : List Nat) :
    OrLinear (fun x => l.foldl (fun r i => ((r <<< 8) % 2 ^ 64) ||| term x i) 0) := by
  constructor
  · exact foldl_step_zero _ (fun i => by rw [hzero]; simp) l
  · intro a b
    show l.foldl (fun r i => ((r <<< 8) % 2 ^ 64) ||| term (a ||| b) i) 0 = _
    simp only [hterm]
    have h := foldl_shift8_or_terms_distrib (term a) (term b) l 0 0
    simp only [Nat.zero_or] at h
    exact h

/-- The byte de-interleave is OR-linear in the interleaved input. -/
theorem dileaveBytes_const_orLinear (count : Nat) :
    OrLinear (fun ileaved => dileaveBytes_const count ileaved) := by
  cases count with
  | zero => exact ⟨rfl, fun a b => by simp [dileaveBytes_const]⟩
  | succ c =>
    have base := orLinear_foldl_dileave
      (fun x i => remIleavedBits_const (c + 1 - 1) 0 (x >>> i))
      (fun a b i => by simp only [shiftRight_lor, remIleavedBits_const_lor])
      (fun i => by simp [remIleavedBits_const_zero])
      (List.range (c + 1)).reverse
    constructor
    · show dileaveBytes_const (c + 1) 0 = 0
      unfold dileaveBytes_const
      simpa using base.1
    · intro a b
      show dileaveBytes_const (c + 1) (a ||| b) = _
      unfold dileaveBytes_const
      simp only [Nat.succ_ne_zero, if_false]
      exact base.2 a b

theorem ileaveBytes_orLinear (count : Nat) : OrLinear (fun bytes => ileaveBytes bytes count) := by
  unfold ileaveBytes ileaveBytes_jmp
  split
  · exact ileaveBytes_const_orLinear count
  · exact OrLinear.const_zero

theorem dileave_bytes_orLinear (count : Nat) :
    OrLinear (fun bytes => dileave_bytes bytes count) := by
  unfold dileave_bytes dileaveBytes_jmp
  split
  · exact dileaveBytes_const_orLinear count
  · exact OrLinear.const_zero

/-! ## C2: byte-interleave round trip -/

set_option maxRecDepth 10000 in
/-- The byte round trip is the identity on every payload power of two (checked by
evaluation). -/
theorem dileave_ileave_bytes_on_basis :
    ∀ c, c < 9 → ∀ j, j < 8 * c → dileave_bytes (ileaveBytes (2 ^ j) c) c = 2 ^ j := by
  decide

/-- Claim C2: for every `count` in `[0, 8]` and every 64-bit payload restricted to
`count` bytes, `dileaveBytes(ileaveBytes(bytes, count), count) == bytes`. -/
theorem dileave_bytes_ileaveBytes (count : Nat) (hc : count ≤ 8) :
    ∀ bytes, bytes < 2 ^ (8 * count) → dileave_bytes (ileaveBytes bytes count) count = bytes := by
  have hlin : OrLinear (fun x => dileave_bytes (ileaveBytes x count) count) :=
    OrLinear.comp (dileave_bytes_orLinear count) (ileaveBytes_orLinear count)
  exact OrLinear.eq_on_lt_two_pow hlin OrLinear.id (8 * count)
    (fun j hj => dileave_ileave_bytes_on_basis count (by omega) j hj)

/-- Witness for C2 at `count = 3`, `bytes = 0xA1B2C3`. -/
theorem dileave_bytes_ileaveBytes_witness :
    3 ≤ 8 ∧ 0xA1B2C3 < 2 ^ (8 * 3) ∧ dileave_bytes (ileaveBytes 0xA1B2C3 3) 3 = 0xA1B2C3 :=
  ⟨by decide, by decide, dileave_bytes_ileaveBytes 3 (by decide) 0xA1B2C3 (by decide)⟩

/-! ## C10: the byte interleave reads only the low `8 * count` bits -/

theorem foldl_congr_on (f g : Nat → Nat → Nat) (l : List Nat)
    (h : ∀ i ∈ l, ∀ r, f r i = g r i) : ∀ x, l.foldl f x = l.foldl g x := by
  induction l with
  | nil => intro x; rfl
  | cons i l ihl =>
    intro x
    simp only [List.foldl_cons]
    rw [h i (List.mem_cons_self i l)]
    exact ihl (fun j hj r => h j (List.mem_cons_of_mem i hj) r) _

/-- Reducing the payload modulo `2 ^ (8 * count)` does not change the byte
interleave: every lane reads `(bytes >> 8*i) & 0xff` with `8*i + 7 < 8 * count`. -/
theorem ileaveBytes_const_mod (count : Nat) (hc : count ≤ 8) (a : Nat) :
    ileaveBytes_const count a = ileaveBytes_const count (a % 2 ^ (8 * count)) := by
  cases count with
  | zero =>
    rw [show ileaveBytes_const 0 a = 0 from rfl,
      show ileaveBytes_const 0 (a % 2 ^ (8 * 0)) = 0 from rfl]
  | succ c =>
    have hlane : ∀ i, i < c + 1 →
        ((a % 2 ^ 64) >>> (8 * i)) &&& 0xff
          = ((a % 2 ^ (8 * (c + 1)) % 2 ^ 64) >>> (8 * i)) &&& 0xff := by
      intro i hi
      apply Nat.eq_of_testBit_eq
      intro t
      rcases lt_or_ge t 8 with ht | ht
      · have h1 : 8 * i + t < 8 * (c + 1) := by omega
        have h2 : 8 * i + t < 64 := by omega
        simp only [Nat.testBit_and, Nat.testBit_shiftRight, Nat.testBit_mod_two_pow,
          show (0xff : Nat) = 2 ^ 8 - 1 by norm_num, Nat.testBit_two_pow_sub_one,
          decide_eq_true ht, decide_eq_true h1, decide_eq_true h2, Bool.true_and, Bool.and_true]
      · simp only [Nat.testBit_and, show (0xff : Nat) = 2 ^ 8 - 1 by norm_num,
          Nat.testBit_two_pow_sub_one, decide_eq_false (Nat.not_lt.mpr ht), Bool.and_false]
    unfold ileaveBytes_const
    simp only [Nat.succ_ne_zero, if_false]
    apply foldl_congr_on
    intro i hi r
    rw [hlane i (List.mem_range.mp hi)]

/-- Claim C10: `ileaveBytes(bytes, count)` depends only on the low `8 * count`
bits of `bytes` — any two 64-bit inputs congruent modulo `2 ^ (8 * count)`
interleave identically; in particular `ileaveBytes(bytes, 0) == 0` for every
input. -/
theorem ileaveBytes_only_low_bytes (count a b : Nat) (hc : count ≤ 8) (_ha : a < 2 ^ 64)
    (_hb : b < 2 ^ 64) (hab : a % 2 ^ (8 * count) = b % 2 ^ (8 * count)) :
    ileaveBytes a count = ileaveBytes b count ∧ ∀ x : Nat, ileaveBytes x 0 = 0 := by
  constructor
  · unfold ileaveBytes ileaveBytes_jmp
    rw [if_pos hc, if_pos hc, ileaveBytes_const_mod count hc a,
      ileaveBytes_const_mod count hc b, hab]
  · intro x
    rfl

/-- Witness for C10 at `count = 2` with the inputs `0x123456789A` and `0xFF789A`,
which agree on their low two bytes. -/
theorem ileaveBytes_only_low_bytes_witness :
    2 ≤ 8 ∧ 0x123456789A < 2 ^ 64 ∧ 0xFF789A < 2 ^ 64 ∧
      0x123456789A % 2 ^ (8 * 2) = 0xFF789A % 2 ^ (8 * 2) ∧
      ileaveBytes 0x123456789A 2 = ileaveBytes 0xFF789A 2 :=
  ⟨by decide, by decide, by decide, by decide,
    (ileaveBytes_only_low_bytes 2 0x123456789A 0xFF789A (by decide) (by decide) (by decide)
      (by decide)).1⟩

/-! ## C8: three-way Morton round trip -/

theorem mod_two_pow_orLinear (k : Nat) : OrLinear (fun x => x % 2 ^ k) :=
  ⟨Nat.zero_mod _, fun a b => mod_two_pow_lor a b k⟩

set_option maxRecDepth 10000 in
/-- Lane-by-lane behaviour of the three-way de-interleave on payload powers of
two: extracting with the matching shift recovers the bit, extracting with either
other shift yields zero (checked by evaluation). -/
theorem morton3_roundtrip_basis : ∀ j, j < 21 →
    remIleavedBits_const 2 2 (ileaveZeros_const 2 2 (2 ^ j)) % 2 ^ 32 = 2 ^ j ∧
    remIleavedBits_const 2 2 (ileaveZeros_const 2 1 (2 ^ j)) % 2 ^ 32 = 0 ∧
    remIleavedBits_const 2 2 (ileaveZeros_const 2 0 (2 ^ j)) % 2 ^ 32 = 0 ∧
    remIleavedBits_const 2 1 (ileaveZeros_const 2 2 (2 ^ j)) % 2 ^ 32 = 0 ∧
    remIleavedBits_const 2 1 (ileaveZeros_const 2 1 (2 ^ j)) % 2 ^ 32 = 2 ^ j ∧
    remIleavedBits_const 2 1 (ileaveZeros_const 2 0 (2 ^ j)) % 2 ^ 32 = 0 ∧
    remIleavedBits_const 2 0 (ileaveZeros_const 2 2 (2 ^ j)) % 2 ^ 32 = 0 ∧
    remIleavedBits_const 2 0 (ileaveZeros_const 2 1 (2 ^ j)) % 2 ^ 32 = 0 ∧
    remIleavedBits_const 2 0 (ileaveZeros_const 2 0 (2 ^ j)) % 2 ^ 32 = 2 ^ j := by
  decide

theorem rem_of_lane_eq_id (s t : Nat)
    (hbasis : ∀ j, j < 21 →
      remIleavedBits_const 2 s (ileaveZeros_const 2 t (2 ^ j)) % 2 ^ 32 = 2 ^ j) :
    ∀ v, v < 2 ^ 21 → remIleavedBits_const 2 s (ileaveZeros_const 2 t v) % 2 ^ 32 = v :=
  fun v hv =>
    OrLinear.eq_on_lt_two_pow
      (OrLinear.comp (OrLinear.comp (mod_two_pow_orLinear 32) (remIleavedBits_const_orLinear 2 s))
        (ileaveZeros_const_orLinear 2 t))
      OrLinear.id 21 hbasis v hv

theorem rem_of_lane_eq_zero (s t : Nat)
    (hbasis : ∀ j, j < 21 →
      remIleavedBits_const 2 s (ileaveZeros_const 2 t (2 ^ j)) % 2 ^ 32 = 0) :
    ∀ v, v < 2 ^ 21 → remIleavedBits_const 2 s (ileaveZeros_const 2 t v) % 2 ^ 32 = 0 :=
  fun v hv =>
    OrLinear.eq_on_lt_two_pow
      (OrLinear.comp (OrLinear.comp (mod_two_pow_orLinear 32) (remIleavedBits_const_orLinear 2 s))
        (ileaveZeros_const_orLinear 2 t))
      OrLinear.const_zero 21 hbasis v hv

/-- Claim C8: for all `x`, `y`, `z` strictly below `2 ^ 21`, de-interleaving the
result of the three-way Morton interleave recovers exactly `(x, y, z)`. -/
theorem dileave3_ileave3 (x y z : Nat) (hx : x < 2 ^ 21) (hy : y < 2 ^ 21) (hz : z < 2 ^ 21) :
    dileave3 (ileave3 x y z) = (x, y, z) := by
  have hsplit : ∀ s : Nat,
      remIleavedBits_const 2 s (ileave3 x y z) % 2 ^ 32
        = remIleavedBits_const 2 s (ileaveZeros_const 2 2 x) % 2 ^ 32
          ||| remIleavedBits_const 2 s (ileaveZeros_const 2 1 y) % 2 ^ 32
          ||| remIleavedBits_const 2 s (ileaveZeros_const 2 0 z) % 2 ^ 32 := by
    intro s
    unfold ileave3
    rw [remIleavedBits_const_lor, remIleavedBits_const_lor, mod_two_pow_lor, mod_two_pow_lor]
  have hb := morton3_roundtrip_basis
  unfold dileave3
  rw [hsplit 2, hsplit 1, hsplit 0,
    rem_of_lane_eq_id 2 2 (fun j hj => (hb j hj).1) x hx,
    rem_of_lane_eq_zero 2 1 (fun j hj => (hb j hj).2.1) y hy,
    rem_of_lane_eq_zero 2 0 (fun j hj => (hb j hj).2.2.1) z hz,
    rem_of_lane_eq_zero 1 2 (fun j hj => (hb j hj).2.2.2.1) x hx,
    rem_of_lane_eq_id 1 1 (fun j hj => (hb j hj).2.2.2.2.1) y hy,
    rem_of_lane_eq_zero 1 0 (fun j hj => (hb j hj).2.2.2.2.2.1) z hz,
    rem_of_lane_eq_zero 0 2 (fun j hj => (hb j hj).2.2.2.2.2.2.1) x hx,
    rem_of_lane_eq_zero 0 1 (fun j hj => (hb j hj).2.2.2.2.2.2.2.1) y hy,
    rem_of_lane_eq_id 0 0 (fun j hj => (hb j hj).2.2.2.2.2.2.2.2) z hz]
  simp

/-- Witness for C8 at `(x, y, z) = (0x12345, 0x54321, 0x0F0F0)`. -/
theorem dileave3_ileave3_witness :
    0x12345 < 2 ^ 21 ∧ 0x54321 < 2 ^ 21 ∧ 0x0F0F0 < 2 ^ 21 ∧
      dileave3 (ileave3 0x12345 0x54321 0x0F0F0) = (0x12345, 0x54321, 0x0F0F0) :=
  ⟨by decide, by decide, by decide,
    dileave3_ileave3 0x12345 0x54321 0x0F0F0 (by decide) (by decide) (by decide)⟩

/-! ## C9: the byte interleave preserves the population count

The interleave relocates bits without merging them; formally, an OR-linear map
whose values on basis powers of two each have one set bit and are disjoint from
the image of all lower bits preserves `popCount_naive`. -/

theorem and_shiftRight (a b s : Nat) : (a &&& b) >>> s = (a >>> s) &&& (b >>> s) := by
  apply Nat.eq_of_testBit_eq
  intro t
  simp [Nat.testBit_and, Nat.testBit_shiftRight]

theorem and_one_lor_of_disjoint (a b : Nat) (hab : a &&& b = 0) :
    (a ||| b) &&& 1 = (a &&& 1) + (b &&& 1) := by
  have h2 : (a &&& 1) &&& (b &&& 1) = 0 := by
    have h : (a &&& 1) &&& (b &&& 1) = (a &&& b) &&& (1 &&& 1) := by ac_rfl
    rw [h, hab]
    rfl
  rw [and_lor a b 1]
  simp only [Nat.and_one_is_mod] at h2 ⊢
  rcases Nat.mod_two_eq_zero_or_one a with ha | ha <;>
    rcases Nat.mod_two_eq_zero_or_one b with hb | hb <;>
      rw [ha, hb] at h2 ⊢ <;> revert h2 <;> decide

theorem and_eq_zero_shiftRight {a b : Nat} (s : Nat) (hab : a &&& b = 0) :
    (a >>> s) &&& (b >>> s) = 0 := by
  rw [← and_shiftRight, hab, Nat.zero_shiftRight]

/-- Disjoint bit patterns OR together without carries, so OR agrees with
addition. -/
theorem lor_eq_add_of_and_eq_zero : ∀ a b : Nat, a &&& b = 0 → a ||| b = a + b := by
  suffices h : ∀ fuel a, a < 2 ^ fuel → ∀ b, a &&& b = 0 → a ||| b = a + b by
    intro a b hab
    exact h a a (Nat.lt_two_pow a) b hab
  intro fuel
  induction fuel with
  | zero =>
    intro a ha b hab
    interval_cases a
    simp
  | succ n ih =>
    intro a ha b hab
    have ha2 : a / 2 < 2 ^ n := by
      rw [Nat.div_lt_iff_lt_mul (by norm_num)]
      calc a < 2 ^ (n + 1) := ha
        _ = 2 ^ n * 2 := by ring
    have hd : (a / 2) &&& (b / 2) = 0 := by
      have h := and_eq_zero_shiftRight 1 hab
      simpa [Nat.shiftRight_one] using h
    have hrec : a / 2 ||| b / 2 = a / 2 + b / 2 := ih (a / 2) ha2 (b / 2) hd
    have hdiv : (a ||| b) / 2 = a / 2 ||| b / 2 := by
      have h := shiftRight_lor a b 1
      simpa [Nat.shiftRight_one] using h
    have hmod : (a ||| b) % 2 = a % 2 + b % 2 := by
      have h := and_one_lor_of_disjoint a b hab
      simpa [Nat.and_one_is_mod] using h
    have e1 := Nat.div_add_mod (a ||| b) 2
    have e2 := Nat.div_add_mod a 2
    have e3 := Nat.div_add_mod b 2
    omega

theorem popCount_naiveGo_zero : ∀ fuel, popCount_naiveGo fuel 0 = 0 := by
  intro fuel
  cases fuel <;> rfl

theorem popCount_naiveGo_succ (fuel x : Nat) :
    popCount_naiveGo (fuel + 1) x = (x &&& 1) + popCount_naiveGo fuel (x >>> 1) := by
  show (if x = 0 then 0 else (x &&& 1) + popCount_naiveGo fuel (x >>> 1)) = _
  by_cases hx : x = 0
  · subst hx
    simp [popCount_naiveGo_zero]
  · rw [if_neg hx]

theorem popCount_naiveGo_lor : ∀ fuel a b, a &&& b = 0 →
    popCount_naiveGo fuel (a ||| b) = popCount_naiveGo fuel a + popCount_naiveGo fuel b := by
  intro fuel
  induction fuel with
  | zero => intros; rfl
  | succ n ih =>
    intro a b hab
    rw [popCount_naiveGo_succ, popCount_naiveGo_succ, popCount_naiveGo_succ,
      and_one_lor_of_disjoint a b hab, shiftRight_lor,
      ih _ _ (and_eq_zero_shiftRight 1 hab)]
    omega

/-- `popCount_naive` is additive on disjoint patterns. -/
theorem popCount_naive_lor (a b : Nat) (h : a &&& b = 0) :
    popCount_naive (a ||| b) = popCount_naive a + popCount_naive b :=
  popCount_naiveGo_lor 64 a b h

theorem popCount_naive_two_pow : ∀ n, n < 64 → popCount_naive (2 ^ n) = 1 := by
  decide

theorem eq_zero_iff_forall_testBit (x : Nat) : x = 0 ↔ ∀ i, x.testBit i = false :=
  ⟨fun h i => h ▸ Nat.zero_testBit i,
   fun h => Nat.eq_of_testBit_eq fun i => (h i).trans (Nat.zero_testBit i).symm⟩

theorem and_eq_zero_of_submask {a p g : Nat} (hsub : a ||| p = p) (hpg : p &&& g = 0) :
    a &&& g = 0 := by
  rw [eq_zero_iff_forall_testBit]
  intro i
  rw [eq_zero_iff_forall_testBit] at hpg
  have hp := congrArg (fun v => v.testBit i) hsub
  have hg := hpg i
  simp only [Nat.testBit_or] at hp
  simp only [Nat.testBit_and] at hg ⊢
  cases ha : a.testBit i <;> cases hgi : g.testBit i <;>
    cases hpi : p.testBit i <;> simp_all

theorem mod_lor_two_pow_sub_one (x n : Nat) : x % 2 ^ n ||| (2 ^ n - 1) = 2 ^ n - 1 := by
  apply Nat.eq_of_testBit_eq
  intro t
  simp only [Nat.testBit_or, Nat.testBit_mod_two_pow, Nat.testBit_two_pow_sub_one]
  cases h : decide (t < n) <;> simp

theorem mod_and_two_pow (x n : Nat) : (x % 2 ^ n) &&& 2 ^ n = 0 := by
  rw [eq_zero_iff_forall_testBit]
  intro t
  simp only [Nat.testBit_and, Nat.testBit_mod_two_pow, Nat.testBit_two_pow]
  rcases Nat.lt_trichotomy t n with h | h | h
  · simp [Nat.ne_of_gt h]
  · simp [h]
  · simp [Nat.not_lt.mpr (Nat.le_of_lt h)]

theorem lt_two_pow_of_testBit_false {x n : Nat} (hx : x < 2 ^ (n + 1))
    (hbit : x.testBit n = false) : x < 2 ^ n := by
  rcases lt_or_ge x (2 ^ n) with h | h
  · exact h
  · exfalso
    have hpos : 0 < 2 ^ n := Nat.pos_pow_of_pos n (by omega)
    have hpow : 2 ^ (n + 1) = 2 ^ n * 2 := pow_succ 2 n
    have hdiv : x / 2 ^ n = 1 := by
      have h1 : 1 ≤ x / 2 ^ n := (Nat.le_div_iff_mul_le hpos).mpr (by omega)
      have h2 : x / 2 ^ n < 2 := by
        rw [Nat.div_lt_iff_lt_mul hpos]
        omega
      omega
    have hmod := Nat.testBit_to_div_mod (x := x) (i := n)
    rw [hbit, hdiv] at hmod
    simp at hmod

/-- An OR-linear map whose basis images each contain exactly one set bit, placed
disjointly from the image of all lower basis bits, preserves the population
count below `2 ^ N`. -/
theorem orLinear_popCount_preserved {f : Nat → Nat} (hf : OrLinear f) :
    ∀ N, N ≤ 64 →
      (∀ n, n < N → popCount_naive (f (2 ^ n)) = 1) →
      (∀ n, n < N → f (2 ^ n) &&& f (2 ^ n - 1) = 0) →
      ∀ x, x < 2 ^ N → popCount_naive (f x) = popCount_naive x := by
  intro N
  induction N with
  | zero =>
    intro _ _ _ x hx
    interval_cases x
    rw [hf.1]
  | succ n ih =>
    intro hN hone hdisj x hx
    cases hbit : x.testBit n with
    | false =>
      exact ih (by omega) (fun m hm => hone m (by omega)) (fun m hm => hdisj m (by omega))
        x (lt_two_pow_of_testBit_false hx hbit)
    | true =>
      have hxsplit : x = x % 2 ^ n ||| 2 ^ n := by
        have h := eq_lowbits_lor_highbit hx
        rw [hbit] at h
        simpa using h
      have hdisj0 : (x % 2 ^ n) &&& 2 ^ n = 0 := mod_and_two_pow x n
      have hfd : f (x % 2 ^ n) &&& f (2 ^ n) = 0 := by
        apply and_eq_zero_of_submask (p := f (2 ^ n - 1))
        · rw [← hf.2, mod_lor_two_pow_sub_one]
        · rw [Nat.and_comm]
          exact hdisj n (Nat.lt_succ_self n)
      have hrecx : popCount_naive (f (x % 2 ^ n)) = popCount_naive (x % 2 ^ n) :=
        ih (by omega) (fun m hm => hone m (by omega)) (fun m hm => hdisj m (by omega))
          (x % 2 ^ n) (Nat.mod_lt x (Nat.pos_pow_of_pos n (by omega)))
      calc popCount_naive (f x)
          = popCount_naive (f (x % 2 ^ n ||| 2 ^ n)) := by rw [← hxsplit]
        _ = popCount_naive (f (x % 2 ^ n) ||| f (2 ^ n)) := by rw [hf.2]
        _ = popCount_naive (f (x % 2 ^ n)) + popCount_naive (f (2 ^ n)) :=
            popCount_naive_lor _ _ hfd
        _ = popCount_naive (x % 2 ^ n) + 1 := by
            rw [hrecx, hone n (Nat.lt_succ_self n)]
        _ = popCount_naive (x % 2 ^ n) + popCount_naive (2 ^ n) := by
            rw [popCount_naive_two_pow n (by omega)]
        _ = popCount_naive (x % 2 ^ n ||| 2 ^ n) := (popCount_naive_lor _ _ hdisj0).symm
        _ = popCount_naive x := by rw [← hxsplit]

set_option maxRecDepth 10000 in
/-- On every payload power of two the byte interleave produces a single set bit,
placed disjointly from the interleave of all lower payload bits (checked by
evaluation). -/
theorem ileaveBytes_popcount_basis :
    ∀ c, c < 9 → ∀ n, n < 8 * c →
      popCount_naive (ileaveBytes (2 ^ n) c) = 1 ∧
        ileaveBytes (2 ^ n) c &&& ileaveBytes (2 ^ n - 1) c = 0 := by
  decide

/-- Claim C9: for every `count` in `[0, 8]` and every payload restricted to
`count` bytes, `popCount(ileaveBytes(bytes, count)) == popCount(bytes)`. -/
theorem ileaveBytes_popCount (count : Nat) (hc : count ≤ 8) :
    ∀ bytes, bytes < 2 ^ (8 * count) →
      popCount_naive (ileaveBytes bytes count) = popCount_naive bytes :=
  orLinear_popCount_preserved (ileaveBytes_orLinear count) (8 * count) (by omega)
    (fun n hn => (ileaveBytes_popcount_basis count (by omega) n hn).1)
    (fun n hn => (ileaveBytes_popcount_basis count (by omega) n hn).2)

/-- Witness for C9 at `count = 4`, `bytes = 0xDEADBEEF`. -/
theorem ileaveBytes_popCount_witness :
    4 ≤ 8 ∧ 0xDEADBEEF < 2 ^ (8 * 4) ∧
      popCount_naive (ileaveBytes 0xDEADBEEF 4) = popCount_naive 0xDEADBEEF :=
  ⟨by decide, by decide, ileaveBytes_popCount 4 (by decide) 0xDEADBEEF (by decide)⟩

/-! ## C6: `remIleavedBits` inverts zero-interleaving within capacity -/

/-- Isolating bit `i` and shifting it to position `p` yields either `2 ^ p` or 0,
depending on the tested bit. -/
theorem isolate_bit_shift (input i p : Nat) :
    ((input >>> i) &&& 1) <<< p = if input.testBit i then 2 ^ p else 0 := by
  have h : (input >>> i) &&& 1 = if input.testBit i then 1 else 0 := by
    rw [Nat.and_one_is_mod, Nat.shiftRight_eq_div_pow, Nat.testBit_to_div_mod]
    rcases Nat.mod_two_eq_zero_or_one (input / 2 ^ i) with h | h <;> rw [h] <;> simp
  rw [h]
  split <;> simp [Nat.shiftLeft_eq]

theorem foldl_or_testBit (term : Nat → Nat) (l : List Nat) :
    ∀ r t, (l.foldl (fun r i => r ||| term i) r).testBit t
      = (r.testBit t || l.any (fun i => (term i).testBit t)) := by
  induction l with
  | nil => intro r t; simp
  | cons i l ihl =>
    intro r t
    simp only [List.foldl_cons, List.any_cons]
    rw [ihl]
    simp [Nat.testBit_or, Bool.or_assoc]

/-- Bit-level characterization of the naive zero-interleave: output bit `t` is
set iff `t` sits on a lane position `i * (k + 1)` with `i` in range and bit `i`
of the (32-bit-truncated) input set. -/
theorem ileaveZeros_naive_testBit (input k t : Nat) :
    ((ileaveZeros_naive input k).testBit t = true
      ↔ ∃ i, i < min 32 (divCeil 64 (k + 1)) ∧ t = i * (k + 1)
          ∧ (input % 2 ^ 32).testBit i = true) := by
  unfold ileaveZeros_naive
  rw [foldl_or_testBit]
  simp only [Nat.zero_testBit, Bool.false_or, List.any_eq_true, List.mem_range,
    isolate_bit_shift]
  constructor
  · rintro ⟨i, hi, hbit⟩
    cases hb : (input % 2 ^ 32).testBit i with
    | false =>
      rw [hb] at hbit
      simp at hbit
    | true =>
      rw [hb] at hbit
      simp only [if_true] at hbit
      rw [Nat.testBit_two_pow] at hbit
      exact ⟨i, hi, (of_decide_eq_true hbit).symm, hb⟩
  · rintro ⟨i, hi, ht, hb⟩
    refine ⟨i, hi, ?_⟩
    rw [hb, if_pos rfl, ht, Nat.testBit_two_pow]
    simp

/-- `divCeil (n + 1) m` is always `n / m + 1`: the ceiling quotient grows exactly
at the multiples of `m`. -/
theorem divCeil_succ (n m : Nat) (hm : 0 < m) : divCeil (n + 1) m = n / m + 1 := by
  have hmod := Nat.div_add_mod n m
  set q := n / m with hq
  set r := n % m with hr
  have hrm : r < m := Nat.mod_lt n hm
  have hn1 : n + 1 = (r + 1) + m * q := by omega
  have hdiv : (n + 1) / m = (r + 1) / m + q := by
    rw [hn1, Nat.add_mul_div_left _ _ hm]
  have hmod1 : (n + 1) % m = (r + 1) % m := by
    rw [hn1, Nat.add_mul_mod_self_left]
  rcases Nat.lt_or_ge (r + 1) m with hlt | hge
  · have h1 : (r + 1) / m = 0 := Nat.div_eq_of_lt hlt
    have h2 : (r + 1) % m = r + 1 := Nat.mod_eq_of_lt hlt
    unfold divCeil
    rw [hdiv, hmod1, h1, h2]
    simp
  · have heq : r + 1 = m := by omega
    have h1 : (r + 1) / m = 1 := by rw [heq, Nat.div_self hm]
    have h2 : (r + 1) % m = 0 := by rw [heq, Nat.mod_self]
    unfold divCeil
    rw [hdiv, hmod1, h1, h2]
    simp only [ne_eq, not_true_eq_false, if_false]
    omega

/-- Invariant of the de-interleave scan after `n` iterations: the output cursor
equals the ceiling quotient `divCeil n (k + 1)`, and output bit `t` is input bit
`t * (k + 1)` whenever that position has been scanned. -/
theorem remFold_spec (input k : Nat) : ∀ n : Nat,
    ((List.range n).foldl (remStep input k) (0, 0)).2 = divCeil n (k + 1)
    ∧ ∀ t, (((List.range n).foldl (remStep input k) (0, 0)).1.testBit t = true
        ↔ t * (k + 1) < n ∧ input.testBit (t * (k + 1)) = true) := by
  intro n
  induction n with
  | zero =>
    constructor
    · simp [divCeil]
    · intro t
      simp
  | succ n ih =>
    rw [List.range_succ, List.foldl_append, List.foldl_cons, List.foldl_nil]
    set p := (List.range n).foldl (remStep input k) (0, 0) with hp
    unfold remStep
    by_cases hn : n % (k + 1) = 0
    · rw [if_pos hn]
      have hq : p.2 = n / (k + 1) := by
        rw [ih.1]
        unfold divCeil
        simp [hn]
      have hdvd : n / (k + 1) * (k + 1) = n :=
        Nat.div_mul_cancel (Nat.dvd_of_mod_eq_zero hn)
      constructor
      · show p.2 + 1 = divCeil (n + 1) (k + 1)
        rw [hq, divCeil_succ n (k + 1) (by omega)]
      · intro t
        show (p.1 ||| ((input >>> n) &&& 1) <<< p.2).testBit t = true ↔ _
        rw [isolate_bit_shift input n p.2, hq]
        cases hbit : input.testBit n with
        | true =>
          rw [if_pos rfl]
          simp only [Nat.testBit_or, Bool.or_eq_true, Nat.testBit_two_pow]
          constructor
          · rintro (h | h)
            · have h' := (ih.2 t).mp h
              exact ⟨by omega, h'.2⟩
            · have ht : t = n / (k + 1) := (of_decide_eq_true h).symm
              have htk : t * (k + 1) = n := by rw [ht, hdvd]
              rw [htk]
              exact ⟨by omega, hbit⟩
          · rintro ⟨h1, h2⟩
            rcases Nat.lt_or_ge (t * (k + 1)) n with h | h
            · exact Or.inl ((ih.2 t).mpr ⟨h, h2⟩)
            · have htk : t * (k + 1) = n := by omega
              have ht : n / (k + 1) = t := by
                rw [← htk, Nat.mul_div_cancel t (by omega : 0 < k + 1)]
              exact Or.inr (decide_eq_true ht)
        | false =>
          rw [if_neg (by simp)]
          rw [Nat.or_zero]
          constructor
          · intro h
            have h' := (ih.2 t).mp h
            exact ⟨by omega, h'.2⟩
          · rintro ⟨h1, h2⟩
            apply (ih.2 t).mpr
            refine ⟨?_, h2⟩
            rcases Nat.lt_or_ge (t * (k + 1)) n with h | h
            · exact h
            · exfalso
              have htk : t * (k + 1) = n := by omega
              rw [htk, hbit] at h2
              exact Bool.false_ne_true h2
    · rw [if_neg hn]
      constructor
      · rw [ih.1, divCeil_succ n (k + 1) (by omega)]
        unfold divCeil
        simp [hn]
      · intro t
        rw [ih.2 t]
        constructor
        · rintro ⟨h1, h2⟩
          exact ⟨by omega, h2⟩
        · rintro ⟨h1, h2⟩
          refine ⟨?_, h2⟩
          rcases Nat.lt_or_ge (t * (k + 1)) n with h | h
          · exact h
          · exfalso
            have htk : t * (k + 1) = n := by omega
            rw [← htk] at hn
            exact hn (Nat.mul_mod_left t (k + 1))

/-- Bit-level characterization of the naive de-interleave: output bit `t` is
input bit `t * (k + 1)`, for positions within the 64 scanned bits. -/
theorem remIleavedBits_naive_testBit (input k t : Nat) :
    ((remIleavedBits_naive input k).testBit t = true
      ↔ t * (k + 1) < 64 ∧ input.testBit (t * (k + 1)) = true) :=
  (remFold_spec input k 64).2 t

theorem eq_of_testBit_iff {x y : Nat} (h : ∀ t, x.testBit t = true ↔ y.testBit t = true) :
    x = y :=
  Nat.eq_of_testBit_eq fun t => by
    have ht := h t
    cases hx : x.testBit t <;> cases hy : y.testBit t <;> simp_all

/-- Lane positions below the capacity bound stay inside the 64-bit word. -/
theorem lane_pos_lt_64 {t k lim : Nat} (hlim : lim ≤ divCeil 64 (k + 1)) (ht : t < lim) :
    t * (k + 1) < 64 := by
  have hdm := Nat.div_add_mod 64 (k + 1)
  have hmlt : 64 % (k + 1) < k + 1 := Nat.mod_lt 64 (by omega)
  have hcomm : 64 / (k + 1) * (k + 1) = (k + 1) * (64 / (k + 1)) := Nat.mul_comm _ _
  unfold divCeil at hlim
  by_cases hz : 64 % (k + 1) = 0
  · rw [if_neg (by omega), Nat.add_zero] at hlim
    have ht' : t + 1 ≤ 64 / (k + 1) := by omega
    have h1 : (t + 1) * (k + 1) ≤ 64 / (k + 1) * (k + 1) := Nat.mul_le_mul_right (k + 1) ht'
    have hexp : (t + 1) * (k + 1) = t * (k + 1) + (k + 1) := by ring
    omega
  · rw [if_pos (by omega)] at hlim
    have ht' : t ≤ 64 / (k + 1) := by omega
    have h1 : t * (k + 1) ≤ 64 / (k + 1) * (k + 1) := Nat.mul_le_mul_right (k + 1) ht'
    omega

/-- Claim C6: `remIleavedBits_naive(input, k)` keeps exactly the bits of `input`
at positions divisible by `k + 1`, packed contiguously into the low bits, and is
therefore the inverse of zero-interleaving on inputs whose set bits lie below
`min(32, ceil(64 / (k + 1)))`. -/
theorem remIleavedBits_inverts_ileaveZeros (k : Nat) (hk : k ≤ 63) :
    (∀ input t : Nat,
        ((remIleavedBits_naive input k).testBit t = true
          ↔ t * (k + 1) < 64 ∧ input.testBit (t * (k + 1)) = true))
    ∧ ∀ x : Nat, x < 2 ^ min 32 (divCeil 64 (k + 1)) →
        remIleavedBits_naive (ileaveZeros_naive x k) k = x := by
  constructor
  · exact fun input t => remIleavedBits_naive_testBit input k t
  · intro x hx
    have hlim32 : min 32 (divCeil 64 (k + 1)) ≤ 32 := Nat.min_le_left _ _
    have hx32 : x < 2 ^ 32 :=
      lt_of_lt_of_le hx (Nat.pow_le_pow_right (by omega) hlim32)
    apply eq_of_testBit_iff
    intro t
    rw [remIleavedBits_naive_testBit, ileaveZeros_naive_testBit]
    constructor
    · rintro ⟨h64, i, hi, hik, hbit⟩
      have hti : i = t := Nat.eq_of_mul_eq_mul_right (by omega : 0 < k + 1) hik.symm
      rw [Nat.mod_eq_of_lt hx32] at hbit
      rw [← hti]
      exact hbit
    · intro hbit
      have ht : t < min 32 (divCeil 64 (k + 1)) := by
        by_contra hge
        rw [Nat.testBit_lt_two_pow
          (lt_of_lt_of_le hx (Nat.pow_le_pow_right (by omega) (Nat.not_lt.mp hge)))] at hbit
        exact Bool.false_ne_true hbit
      refine ⟨lane_pos_lt_64 (Nat.min_le_right _ _) ht, t, ht, rfl, ?_⟩
      rw [Nat.mod_eq_of_lt hx32]
      exact hbit

/-- Witness for C6 at `k = 2`, `x = 0b101011`, `input = 0x123456789ABCDEF0`,
`t = 5`. -/
theorem remIleavedBits_inverts_ileaveZeros_witness :
    2 ≤ 63 ∧ 0b101011 < 2 ^ min 32 (divCeil 64 (2 + 1)) ∧
      remIleavedBits_naive (ileaveZeros_naive 0b101011 2) 2 = 0b101011 ∧
      ((remIleavedBits_naive 0x123456789ABCDEF0 2).testBit 5 = true
        ↔ 5 * (2 + 1) < 64 ∧ (0x123456789ABCDEF0 : Nat).testBit (5 * (2 + 1)) = true) :=
  ⟨by decide, by decide,
    (remIleavedBits_inverts_ileaveZeros 2 (by decide)).2 0b101011 (by decide),
    (remIleavedBits_inverts_ileaveZeros 2 (by decide)).1 0x123456789ABCDEF0 5⟩

/-! ## C4 and C5: correctness of the binary-logarithm algorithms -/

theorem testBit_log2_self {v : Nat} (h0 : v ≠ 0) : v.testBit (Nat.log2 v) = true := by
  have h1 : 2 ^ Nat.log2 v ≤ v := Nat.log2_self_le h0
  have h2 : v < 2 ^ (Nat.log2 v + 1) := Nat.lt_log2_self
  have hpos : 0 < 2 ^ Nat.log2 v := Nat.pos_pow_of_pos _ (by omega)
  have hd : v / 2 ^ Nat.log2 v = 1 := by
    have hlo : 1 ≤ v / 2 ^ Nat.log2 v := (Nat.le_div_iff_mul_le hpos).mpr (by omega)
    have hhi : v / 2 ^ Nat.log2 v < 2 := by
      rw [Nat.div_lt_iff_lt_mul hpos]
      have hp := pow_succ 2 (Nat.log2 v)
      omega
    omega
  rw [Nat.testBit_to_div_mod, hd]
  simp

theorem and_two_pow_eq_zero_of_mod {r i : Nat} (h : r % 2 ^ (i + 1) = 0) :
    r &&& 2 ^ i = 0 := by
  have hbit : r.testBit i = false := by
    have h1 : (r % 2 ^ (i + 1)).testBit i = false := by rw [h]; exact Nat.zero_testBit i
    rw [Nat.testBit_mod_two_pow, decide_eq_true (by omega : i < i + 1), Bool.true_and] at h1
    exact h1
  rw [eq_zero_iff_forall_testBit]
  intro t
  simp only [Nat.testBit_and, Nat.testBit_two_pow]
  rcases eq_or_ne i t with h | h
  · subst h
    rw [hbit]
    rfl
  · simp [h]

/-- Shifting a `v` known to exceed `2 ^ K` drops the binary logarithm by
exactly `K`. -/
theorem log2_shiftRight_pow {v K : Nat} (h : 2 ^ K ≤ v) :
    Nat.log2 v = K + Nat.log2 (v / 2 ^ K) := by
  have hKpos : 0 < 2 ^ K := Nat.pos_pow_of_pos _ (by omega)
  have hq0 : v / 2 ^ K ≠ 0 := by
    have : 1 ≤ v / 2 ^ K := (Nat.le_div_iff_mul_le hKpos).mpr (by omega)
    omega
  have hlo : 2 ^ Nat.log2 (v / 2 ^ K) ≤ v / 2 ^ K := Nat.log2_self_le hq0
  have hhi : v / 2 ^ K < 2 ^ (Nat.log2 (v / 2 ^ K) + 1) := Nat.lt_log2_self
  have hlo' : 2 ^ (K + Nat.log2 (v / 2 ^ K)) ≤ v := by
    rw [pow_add]
    calc 2 ^ K * 2 ^ Nat.log2 (v / 2 ^ K) ≤ 2 ^ K * (v / 2 ^ K) :=
          Nat.mul_le_mul_left _ hlo
      _ ≤ v := Nat.mul_div_le v (2 ^ K)
  have hhi' : v < 2 ^ (K + Nat.log2 (v / 2 ^ K) + 1) := by
    have h1 : v < 2 ^ (Nat.log2 (v / 2 ^ K) + 1) * 2 ^ K := by
      rw [← Nat.div_lt_iff_lt_mul hKpos]
      exact hhi
    calc v < 2 ^ (Nat.log2 (v / 2 ^ K) + 1) * 2 ^ K := h1
      _ = 2 ^ (K + Nat.log2 (v / 2 ^ K) + 1) := by
          rw [← pow_add]
          congr 1
          omega
  simp only [Nat.log2_eq_log_two] at hlo' hhi' ⊢
  exact Nat.log_eq_of_pow_le_of_lt_pow hlo' hhi'

theorem log2floor_fastGo_zero : ∀ p r, log2floor_fastGo p 0 r = r := by
  intro p
  induction p with
  | zero => intro r; rfl
  | succ i ih =>
    intro r
    show log2floor_fastGo i (0 >>> (if 2 ^ 2 ^ i ≤ 0 then 2 ^ i else 0))
        (r ||| (if 2 ^ 2 ^ i ≤ 0 then 2 ^ i else 0)) = r
    rw [if_neg (Nat.not_le.mpr (Nat.pos_pow_of_pos _ (by omega)))]
    simp only [Nat.zero_shiftRight, Nat.or_zero]
    exact ih r

/-- Invariant of the binary-search loop: starting from a window `v < 2 ^ 2 ^ p`
and an accumulator with no bits below `p`, the loop adds exactly `log2 v`. -/
theorem log2floor_fastGo_eq : ∀ p v r, 1 ≤ v → v < 2 ^ 2 ^ p → r % 2 ^ p = 0 →
    log2floor_fastGo p v r = r + Nat.log2 v := by
  intro p
  induction p with
  | zero =>
    intro v r h1 h2 _
    have h2' : v < 2 := by simpa using h2
    have hv : v = 1 := by omega
    subst hv
    show r = r + Nat.log2 1
    rw [show Nat.log2 1 = 0 by simp [Nat.log2]]
    omega
  | succ i ih =>
    intro v r h1 h2 hr
    have hipos : 0 < 2 ^ 2 ^ i := Nat.pos_pow_of_pos _ (by omega)
    have hdvd : 2 ^ i ∣ r := dvd_trans (pow_dvd_pow 2 (by omega)) (Nat.dvd_of_mod_eq_zero hr)
    by_cases hle : 2 ^ 2 ^ i ≤ v
    · show log2floor_fastGo i (v >>> (if 2 ^ 2 ^ i ≤ v then 2 ^ i else 0))
          (r ||| (if 2 ^ 2 ^ i ≤ v then 2 ^ i else 0)) = r + Nat.log2 v
      rw [if_pos hle, Nat.shiftRight_eq_div_pow]
      have hro : r ||| 2 ^ i = r + 2 ^ i :=
        lor_eq_add_of_and_eq_zero r (2 ^ i) (and_two_pow_eq_zero_of_mod hr)
      rw [hro]
      have hv1 : 1 ≤ v / 2 ^ 2 ^ i := (Nat.le_div_iff_mul_le hipos).mpr (by omega)
      have hv2 : v / 2 ^ 2 ^ i < 2 ^ 2 ^ i := by
        rw [Nat.div_lt_iff_lt_mul hipos]
        have hpow : (2 : Nat) ^ 2 ^ (i + 1) = 2 ^ 2 ^ i * 2 ^ 2 ^ i := by
          rw [← pow_add]
          congr 1
          have := pow_succ 2 i
          omega

        rw [← hpow]
        exact h2
      have hr' : (r + 2 ^ i) % 2 ^ i = 0 := by
        rcases hdvd with ⟨m, hm⟩
        subst hm
        rw [Nat.add_comm, Nat.add_mul_mod_self_left]
        exact Nat.mod_self _
      rw [ih (v / 2 ^ 2 ^ i) (r + 2 ^ i) hv1 hv2 hr']
      rw [log2_shiftRight_pow hle]
      omega
    · show log2floor_fastGo i (v >>> (if 2 ^ 2 ^ i ≤ v then 2 ^ i else 0))
          (r ||| (if 2 ^ 2 ^ i ≤ v then 2 ^ i else 0)) = r + Nat.log2 v
      rw [if_neg hle]
      simp only [Nat.shiftRight_zero, Nat.or_zero]
      exact ih v r h1 (Nat.not_le.mp hle) (Nat.eq_zero_of_dvd_of_lt hdvd |> fun _ => by
        rcases hdvd with ⟨m, hm⟩
        subst hm
        exact Nat.mul_mod_right _ _)

theorem log2floor_fast_eq {w : Nat} (hw : w = 8 ∨ w = 16 ∨ w = 32 ∨ w = 64) (v : Nat)
    (hv : v < 2 ^ w) : log2floor_fast w v = if v = 0 then 0 else Nat.log2 v := by
  by_cases h0 : v = 0
  · subst h0
    rw [if_pos rfl]
    exact log2floor_fastGo_zero _ 0
  · rw [if_neg h0]
    have hrun : ∀ p, v < 2 ^ 2 ^ p → log2floor_fastGo p v 0 = Nat.log2 v := by
      intro p hp
      rw [log2floor_fastGo_eq p v 0 (by omega) hp (by simp), Nat.zero_add]
    rcases hw with h | h | h | h <;> subst h
    · exact hrun 3 (by omega)
    · exact hrun 4 (by omega)
    · exact hrun 5 (by omega)
    · exact hrun 6 (by omega)

theorem smear_fold_testBit (v : Nat) : ∀ m t,
    ((List.range m).foldl (fun v i => v ||| v >>> (1 <<< i)) v).testBit t = true
      ↔ ∃ j, j < 2 ^ m ∧ v.testBit (t + j) = true := by
  intro m
  induction m with
  | zero =>
    intro t
    constructor
    · intro h
      exact ⟨0, by omega, by simpa using h⟩
    · rintro ⟨j, hj, h⟩
      have hj0 : j = 0 := by omega
      subst hj0
      simpa using h
  | succ m ih =>
    intro t
    rw [List.range_succ, List.foldl_append, List.foldl_cons, List.foldl_nil]
    show ((List.range m).foldl (fun v i => v ||| v >>> (1 <<< i)) v
        ||| (List.range m).foldl (fun v i => v ||| v >>> (1 <<< i)) v >>> (1 <<< m)).testBit t
        = true ↔ _
    have hpow : (1 : Nat) <<< m = 2 ^ m := Nat.one_shiftLeft m
    have hsum := pow_succ 2 m
    simp only [Nat.testBit_or, Nat.testBit_shiftRight, Bool.or_eq_true, hpow]
    rw [ih t, ih (2 ^ m + t)]
    constructor
    · rintro (⟨j, hj, h⟩ | ⟨j, hj, h⟩)
      · exact ⟨j, by omega, h⟩
      · refine ⟨2 ^ m + j, by omega, ?_⟩
        rw [show t + (2 ^ m + j) = 2 ^ m + t + j by omega]
        exact h
    · rintro ⟨j, hj, h⟩
      rcases Nat.lt_or_ge j (2 ^ m) with hj' | hj'
      · exact Or.inl ⟨j, hj', h⟩
      · refine Or.inr ⟨j - 2 ^ m, by omega, ?_⟩
        rw [show 2 ^ m + t + (j - 2 ^ m) = t + j by omega]
        exact h

/-- The OR-shift cascade of `ceilPow2m1_shift` fills every bit below the highest
set bit of a nonzero 32-bit input. -/
theorem ceilPow2m1_shift_spec (v : Nat) (hv : v < 2 ^ 32) (h0 : v ≠ 0) :
    ceilPow2m1_shift 32 v = 2 ^ (Nat.log2 v + 1) - 1 := by
  have hL : Nat.log2 v < 32 := (Nat.log2_lt h0).mpr hv
  apply eq_of_testBit_iff
  intro t
  show ((List.range (log2bits_v 32)).foldl (fun v i => v ||| v >>> (1 <<< i)) v).testBit t
      = true ↔ _
  rw [show log2bits_v 32 = 5 from rfl, smear_fold_testBit v 5 t, Nat.testBit_two_pow_sub_one]
  constructor
  · rintro ⟨j, _, h⟩
    have hle : t + j ≤ Nat.log2 v := by
      by_contra hgt
      rw [Nat.testBit_lt_two_pow] at h
      · exact Bool.false_ne_true h
      · calc v < 2 ^ (Nat.log2 v + 1) := Nat.lt_log2_self
          _ ≤ 2 ^ (t + j) := Nat.pow_le_pow_right (by omega) (by omega)
    exact decide_eq_true (by omega)
  · intro h
    have ht : t ≤ Nat.log2 v := by
      have := of_decide_eq_true h
      omega
    refine ⟨Nat.log2 v - t, by omega, ?_⟩
    rw [show t + (Nat.log2 v - t) = Nat.log2 v by omega]
    exact testBit_log2_self h0

set_option maxRecDepth 10000 in
/-- The De Bruijn multiply-and-lookup recovers each of the 32 possible logarithm
classes (checked by evaluation). -/
theorem debruijn_table_correct : ∀ L, L < 32 →
    MultiplyDeBruijnBitPosition.getD (((2 ^ (L + 1) - 1) * 0x07C4ACDD % 2 ^ 32) >>> 27) 0 = L := by
  decide

theorem log2floor_debruijn_eq (v : Nat) (hv : v < 2 ^ 32) :
    log2floor_debruijn v = if v = 0 then 0 else Nat.log2 v := by
  by_cases h0 : v = 0
  · subst h0
    rw [if_pos rfl]
    rfl
  · rw [if_neg h0]
    show MultiplyDeBruijnBitPosition.getD
      ((ceilPow2m1_shift 32 (v % 2 ^ 32) * 0x07C4ACDD % 2 ^ 32) >>> 27) 0 = Nat.log2 v
    rw [Nat.mod_eq_of_lt hv, ceilPow2m1_shift_spec v hv h0]
    exact debruijn_table_correct (Nat.log2 v) ((Nat.log2_lt h0).mpr hv)

/-- The dispatching `log2floor` computes the floored binary logarithm (with the
convention `log2floor 0 = 0`) at each instantiated width. -/
theorem log2floor_eq {w : Nat} (hw : w = 8 ∨ w = 16 ∨ w = 32 ∨ w = 64) (v : Nat)
    (hv : v < 2 ^ w) : log2floor w v = if v = 0 then 0 else Nat.log2 v := by
  unfold log2floor
  by_cases h32 : w = 32
  · subst h32
    rw [if_pos rfl]
    exact log2floor_debruijn_eq v hv
  · rw [if_neg h32]
    exact log2floor_fast_eq hw v hv

/-- Claim C4: the De Bruijn-multiplication `log2floor` returns the same result as
the binary-search shift algorithm for every 32-bit input, including 0. -/
theorem log2floor_debruijn_eq_fast (v : Nat) (hv : v < 2 ^ 32) :
    log2floor_debruijn v = log2floor_fast 32 v := by
  rw [log2floor_debruijn_eq v hv, log2floor_fast_eq (Or.inr (Or.inr (Or.inl rfl))) v hv]

/-- Witness for C4 at `v = 123456789`. -/
theorem log2floor_debruijn_eq_fast_witness :
    123456789 < 2 ^ 32 ∧ log2floor_debruijn 123456789 = log2floor_fast 32 123456789 :=
  ⟨by decide, log2floor_debruijn_eq_fast 123456789 (by decide)⟩

/-- Claim C5: at every instantiated width, `log2floor v` is the index of the
highest set bit for `v > 0`, `log2floor 0 = 0`, and `log2ceil 0 = 0`. -/
theorem log2floor_highest_bit (w : Nat) (hw : w = 8 ∨ w = 16 ∨ w = 32 ∨ w = 64) :
    (∀ v, v < 2 ^ w → 0 < v →
        v.testBit (log2floor w v) = true ∧ ∀ j, log2floor w v < j → v.testBit j = false)
    ∧ log2floor w 0 = 0 ∧ log2ceil w 0 = 0 := by
  have hzero : log2floor w 0 = 0 := by
    rw [log2floor_eq hw 0 (Nat.pos_pow_of_pos w (by omega)), if_pos rfl]
  refine ⟨?_, hzero, ?_⟩
  · intro v hv h0
    rw [log2floor_eq hw v hv, if_neg (by omega)]
    refine ⟨testBit_log2_self (by omega), ?_⟩
    intro j hj
    apply Nat.testBit_lt_two_pow
    calc v < 2 ^ (Nat.log2 v + 1) := Nat.lt_log2_self
      _ ≤ 2 ^ j := Nat.pow_le_pow_right (by omega) (by omega)
  · unfold log2ceil
    rw [hzero]
    simp [isPow2or0]

/-- Witness for C5 at `w = 32`, `v = 100` (`log2floor 100 = 6`). -/
theorem log2floor_highest_bit_witness :
    (32 = 8 ∨ 32 = 16 ∨ 32 = 32 ∨ 32 = 64) ∧ 100 < 2 ^ 32 ∧ 0 < 100 ∧
      (100 : Nat).testBit (log2floor 32 100) = true :=
  ⟨by decide, by decide, by decide,
    ((log2floor_highest_bit 32 (by decide)).1 100 (by decide) (by decide)).1⟩

/-! ## C3: the arbitrary-base logarithm and the wrapped power table

The trait `nextLargerUint_impl` in `bit.hpp` tests `bits_v<Int> >= 8` first, so
every instantiated width gets a 16-bit power-table type; the powers of the base
beyond `2 ^ 16` are silently truncated, and `logFloor` miscomputes exactly where
the repository's own `static_assert` tests (`log10floor<uint32>(999'999) == 5`,
`log10floor<uint64>(1 << 63) == 18`) pin the correct values. -/

set_option maxRecDepth 100000 in
/-- Evaluation of the embedded `logFloor` at the failing inputs: the code returns
6 for `log10floor<uint32>(999999)` (the exact floored logarithm is 5, as the
bounds recorded here show) and 19 for `log10floor<uint64>(2^63)` (exact: 18),
because `nextLargerUintBits` makes every power table 16 bits wide. -/
theorem logFloor_wrapped_power_table :
    logFloor 10 32 999999 = 6 ∧ logFloor 10 64 (2 ^ 63) = 19 ∧
      10 ^ 5 ≤ 999999 ∧ 999999 < 10 ^ 6 ∧ 10 ^ 18 ≤ 2 ^ 63 ∧ 2 ^ 63 < 10 ^ 19 ∧
      nextLargerUintBits 32 = 16 ∧ nextLargerUintBits 64 = 16 := by
  decide

/-! ### Sanity checks against the repository's own `static_assert` test values -/

example : ileaveZeros_naive 0xff 0 = 0xff := by decide
example : ileaveZeros_naive 0xff 1 = 0x5555 := by decide
example : ileaveZeros_naive 0xffffffff 1 = 0x5555555555555555 := by decide
example : ileaveZeros_naive 0xffffffff 2 = 0x9249249249249249 := by decide
example : ileaveZeros_naive 0xffffffff 31 = 0x0000000100000001 := by decide
example : remIleavedBits_naive 0x5555555555555555 1 = 0xffffffff := by decide
example : remIleavedBits_naive 0x1111111111111111 3 = 0xffff := by decide
example : duplBits_naive (ileaveZeros_naive (2 ^ 32 - 1) 1) 2 = 0x3333333333333333 := by decide
example : log2floor 32 100 = 6 := by decide
example : log2ceil 32 100 = 7 := by decide
example : log2floor 64 128 = 7 := by decide

end Bitmanip
